import Mathlib

/-!
Shallow embedding of `src/edsm_discovery.py` (EDSM-Discovery).

Modelling conventions:

* A UTC datetime is an `Int`: the number of seconds since a fixed reference
  instant that falls on a Monday 00:00:00 UTC.  Python `datetime` arithmetic
  over UTC is linear in seconds (every calendar day has exactly 86400
  seconds in this model, as in Python's aware-`datetime` arithmetic), so
  `dt.weekday()` is `floor(t / 86400) mod 7` with this choice of origin, and
  `timedelta(days = n)` is `n * 86400` seconds.  `make_utc` is the identity
  (all modelled datetimes are already UTC).
* Python dictionaries are association lists in insertion order; the
  `alist_*` helpers implement membership test, lookup, `pop` and
  insert-or-update exactly as `dict` does (update keeps the position of an
  existing key, insertion appends at the end).
* `interval_key` (`start.strftime("%Y-%m-%d")` in the source) is modelled by
  the calendar-day index `t.fdiv 86400`, which is in bijection with the
  `"%Y-%m-%d"` date string of a UTC instant.
* The network side of `get_first_discoveries` (the `requests.get` call, the
  HTTP status check and JSON decoding) is an oracle value of type
  `ApiResponse`: `ApiResponse.failure` stands for any raised exception
  (transport error, timeout, non-2xx via `raise_for_status`, or a malformed
  payload raising during decoding/extraction), and `ApiResponse.ok msgnum
  logs` for a successfully decoded JSON body with its `msgnum` field and its
  `logs` array.  The reconciliation engine receives the oracle as a function
  `api : start → end → ApiResponse`.
* The cache file content is an oracle too: `stored : Option Cache` is the
  parsed content of the cache file, `none` when the file is absent (the
  source's `load_cache` then returns `{}`, which is falsy, so
  `update_discoveries_cache` replaces it with the skeleton cache).
* `utc_now().isoformat()` is the oracle `now`, queried at each interval key.
* `save_cache` writes the whole cache to disk; the run is modelled as also
  returning the chronological list of snapshots passed to `save_cache`.
-/

def secondsPerDay : Int := 86400

def secondsPerWeek : Int := 604800

/-- Python `dt.weekday()`: 0 for Monday, ..., 6 for Sunday.  Python `//` is
floor division, hence `Int.fdiv`. -/
def weekday (t : Int) : Int := (t.fdiv secondsPerDay) % 7

/-- `align_to_monday(dt) = dt - timedelta(days=dt.weekday())`.  Note that
this keeps the time of day of `dt`; it only moves the calendar day back to
the Monday of `dt`'s week. -/
def align_to_monday (t : Int) : Int :=
  t - secondsPerDay * weekday t

/-- Structural version of the `while current < end_date` loop of
`generate_stable_week_intervals`: `fuel` bounds the number of iterations.
Each iteration advances `current` by one week (at least one second), so
`(end_date - current).toNat` is always enough fuel; `gen_aux` below supplies
that fuel, and `gen_aux_eq` recovers the exact `while` unfolding, making the
fuel invisible to every consumer. -/
def gen_go : Nat → Int → Int → List (Int × Int)
  | 0, _, _ => []
  | fuel + 1, current, end_date =>
      if current < end_date then
        (current, current + secondsPerWeek) :: gen_go fuel (current + secondsPerWeek) end_date
      else
        []

/-- The `while current < end_date` loop of `generate_stable_week_intervals`,
starting from an arbitrary `current`. -/
def gen_aux (current end_date : Int) : List (Int × Int) :=
  gen_go (end_date - current).toNat current end_date

/-- `generate_stable_week_intervals(start_date, end_date)`, as the list of
yielded `(current, week_end)` pairs. -/
def generate_stable_week_intervals (start_date end_date : Int) :
    List (Int × Int) :=
  gen_aux (align_to_monday start_date) end_date

/-- `interval_key(start) = start.strftime("%Y-%m-%d")`, modelled as the
calendar-day index of `start` (in bijection with the date string). -/
def interval_key (start : Int) : Int := start.fdiv secondsPerDay

/-! ### Python dict operations on association lists -/

def alist_mem {α β : Type} [DecidableEq α] (m : List (α × β)) (k : α) : Bool :=
  m.any fun p => decide (p.1 = k)

def alist_get? {α β : Type} [DecidableEq α] (m : List (α × β)) (k : α) : Option β :=
  (m.find? fun p => decide (p.1 = k)).map Prod.snd

/-- `d.pop(k, None)`: remove the key `k` if present. -/
def alist_pop {α β : Type} [DecidableEq α] (m : List (α × β)) (k : α) : List (α × β) :=
  m.filter fun p => decide (p.1 ≠ k)

/-- `d[k] = v`: update in place if the key exists (keeping its position),
otherwise append the new entry at the end, as Python dicts do. -/
def alist_set {α β : Type} [DecidableEq α] (m : List (α × β)) (k : α) (v : β) :
    List (α × β) :=
  if alist_mem m k then
    m.map fun p => if p.1 = k then (k, v) else p
  else
    m ++ [(k, v)]

/-- Python string comparison (`date < existing_date` in the source):
lexicographic on code points, i.e. list order on the underlying character
lists. -/
def pystr_lt (a b : String) : Prop := a.data < b.data

instance (a b : String) : Decidable (pystr_lt a b) :=
  inferInstanceAs (Decidable (a.data < b.data))

/-! ### Data model of the persisted cache -/

/-- The `meta` object of the cache (`{"version": 1}` on creation). -/
structure CacheMeta where
  version : Int
deriving DecidableEq

/-- A stored interval record `{"fetched_at": <ISO timestamp>}`. -/
structure IntervalRec where
  fetched_at : String
deriving DecidableEq

/-- A stored entity record `{"name": ..., "firstDiscoveryDate": ...}`. -/
structure SystemRec where
  name : String
  firstDiscoveryDate : String
deriving DecidableEq

/-- The whole persisted cache document
`{"meta": ..., "intervals": ..., "systems": ...}`. -/
structure Cache where
  meta : CacheMeta
  intervals : List (Int × IntervalRec)
  systems : List (String × SystemRec)
deriving DecidableEq

/-- The skeleton cache created when the loaded cache is falsy. -/
def skeleton_cache : Cache :=
  { meta := { version := 1 }, intervals := [], systems := [] }

/-! ### get_first_discoveries -/

/-- One element of the decoded `logs` array. -/
structure LogEntry where
  systemId : String
  system : String
  date : String
  firstDiscover : Bool
deriving DecidableEq

/-- Outcome of the network call plus JSON decoding in
`get_first_discoveries`: `failure` for any raised exception (network error,
timeout, non-2xx status, malformed payload), `ok` for a decoded body. -/
inductive ApiResponse where
  | failure : ApiResponse
  | ok (msgnum : Int) (logs : List LogEntry) : ApiResponse
deriving DecidableEq

/-- `get_first_discoveries`: returns the `(str(systemId), system, date)`
triples of the first-discovery logs, `[]` when the request raised or when
`msgnum` is not the success value 100. -/
def get_first_discoveries (resp : ApiResponse) : List (String × String × String) :=
  match resp with
  | .failure => []
  | .ok msgnum logs =>
      if msgnum ≠ 100 then []
      else (logs.filter fun l => l.firstDiscover).map fun l => (l.systemId, l.system, l.date)

/-! ### update_discoveries_cache -/

/-- The per-observation body of the `for sys_id, name, date in discoveries`
loop (the Entity Record Merger): earliest `firstDiscoveryDate` wins, the
name of the first observation is kept. -/
def merge_observation (systems : List (String × SystemRec))
    (obs : String × String × String) : List (String × SystemRec) :=
  match alist_get? systems obs.1 with
  | some existing =>
      if pystr_lt obs.2.2 existing.firstDiscoveryDate then
        alist_set systems obs.1 { existing with firstDiscoveryDate := obs.2.2 }
      else
        systems
  | none =>
      alist_set systems obs.1 { name := obs.2.1, firstDiscoveryDate := obs.2.2 }

/-- One iteration of the fetch loop for a candidate `(start, end, key)`:
fetch, merge all returned observations, then write the interval record. -/
def process_interval (api : Int → Int → ApiResponse) (now : Int → String)
    (cache : Cache) (iv : Int × Int × Int) : Cache :=
  let discoveries := get_first_discoveries (api iv.1 iv.2.1)
  { cache with
      systems := discoveries.foldl merge_observation cache.systems
      intervals := alist_set cache.intervals iv.2.2 { fetched_at := now iv.2.2 } }

/-- The fetch loop over the candidate list.  Returns the final cache and the
chronological list of snapshots passed to `save_cache` (one per interval,
taken right after the interval's record is written). -/
def run_intervals (api : Int → Int → ApiResponse) (now : Int → String) :
    Cache → List (Int × Int × Int) → Cache × List Cache
  | cache, [] => (cache, [])
  | cache, iv :: rest =>
      let c := process_interval api now cache iv
      let r := run_intervals api now c rest
      (r.1, c :: r.2)

/-- The safety-window invalidation: pop the interval record of every
interval of `generate_stable_week_intervals(safe_start, end_date)` where
`safe_start = align_to_monday(end_date - timedelta(days=7*safety_weeks))`. -/
def invalidate_safety (cache : Cache) (end_date : Int) (safety_weeks : Int) : Cache :=
  let safe_start := align_to_monday (end_date - secondsPerDay * (7 * safety_weeks))
  { cache with
      intervals :=
        (generate_stable_week_intervals safe_start end_date).foldl
          (fun m iv => alist_pop m (interval_key iv.1)) cache.intervals }

/-- The candidate-selection loop: keep every generated interval that is not
entirely outside `[start_date, end_date)` and whose key is absent from the
interval map, appending `(start, end, key)` in order. -/
def intervals_to_fetch (cache : Cache) (start_date end_date : Int) :
    List (Int × Int × Int) :=
  (generate_stable_week_intervals start_date end_date).foldl
    (fun acc iv =>
      if iv.2 ≤ start_date ∨ iv.1 ≥ end_date then acc
      else if alist_mem cache.intervals (interval_key iv.1) then acc
      else acc ++ [(iv.1, iv.2, interval_key iv.1)])
    []

/-- The observable outcome of one `update_discoveries_cache` run: the final
in-memory cache (whose `systems` field is the Python return value), the
snapshots passed to `save_cache` in order, and the computed candidate
list `intervals_to_fetch`. -/
structure RunResult where
  cache : Cache
  saves : List Cache
  candidates : List (Int × Int × Int)
deriving DecidableEq

/-- `update_discoveries_cache(commander, api_key, start_date, end_date,
safety_weeks, cache_file)`.  `stored` is the parsed content of the cache
file (`none` when absent, in which case `load_cache` returns the falsy `{}`
and the skeleton is installed). -/
def loaded (stored : Option Cache) : Cache :=
  match stored with
  | none => skeleton_cache
  | some c => c

def update_discoveries_cache (api : Int → Int → ApiResponse)
    (now : Int → String) (start_date end_date : Int) (safety_weeks : Int)
    (stored : Option Cache) : RunResult :=
  { cache := (run_intervals api now (invalidate_safety (loaded stored) end_date safety_weeks)
      (intervals_to_fetch (invalidate_safety (loaded stored) end_date safety_weeks)
        start_date end_date)).1
    saves := (run_intervals api now (invalidate_safety (loaded stored) end_date safety_weeks)
      (intervals_to_fetch (invalidate_safety (loaded stored) end_date safety_weeks)
        start_date end_date)).2
    candidates := intervals_to_fetch
      (invalidate_safety (loaded stored) end_date safety_weeks) start_date end_date }

/-- The element-wise collection underlying the candidate-selection loop:
appending `f iv` for each generated interval `iv` in order.  `foldl` with
list append (the literal shape of the Python loop) is rewritten to this
shape by `intervals_to_fetch_eq`. -/
def collect_candidates (f : Int × Int → List (Int × Int × Int)) :
    List (Int × Int) → List (Int × Int × Int)
  | [] => []
  | iv :: rest => f iv ++ collect_candidates f rest

/-- The per-interval candidate test of `intervals_to_fetch`. -/
def candidate_step (cache : Cache) (start_date end_date : Int) (iv : Int × Int) :
    List (Int × Int × Int) :=
  if iv.2 ≤ start_date ∨ iv.1 ≥ end_date then []
  else if alist_mem cache.intervals (interval_key iv.1) then []
  else [(iv.1, iv.2, interval_key iv.1)]

/-- A Monday 00:00:00 UTC instant: with the model's origin on a Monday
midnight, these are exactly the multiples of a week in seconds. -/
def is_monday_midnight (t : Int) : Prop := t % secondsPerWeek = 0

instance (t : Int) : Decidable (is_monday_midnight t) :=
  inferInstanceAs (Decidable (t % secondsPerWeek = 0))

/-! ## Basic lemmas about the interval generator -/

/-- The fuel of `gen_go` is irrelevant as long as it is sufficient. -/
theorem gen_go_congr (e : Int) : ∀ (n m : Nat) (c : Int),
    (e - c).toNat ≤ n → (e - c).toNat ≤ m → gen_go n c e = gen_go m c e := by
  intro n
  induction n with
  | zero =>
      intro m c hn _
      have hce : ¬ c < e := by omega
      cases m with
      | zero => rfl
      | succ m => simp [gen_go, hce]
  | succ n ih =>
      intro m c hn hm
      cases m with
      | zero =>
          have hce : ¬ c < e := by omega
          simp [gen_go, hce]
      | succ m =>
          by_cases hce : c < e
          · have h1 : (e - (c + secondsPerWeek)).toNat ≤ n := by
              simp only [secondsPerWeek]
              omega
            have h2 : (e - (c + secondsPerWeek)).toNat ≤ m := by
              simp only [secondsPerWeek]
              omega
            simp only [gen_go, if_pos hce]
            rw [ih m (c + secondsPerWeek) h1 h2]
          · simp [gen_go, hce]

theorem gen_aux_eq (current end_date : Int) :
    gen_aux current end_date =
      if current < end_date then
        (current, current + secondsPerWeek) :: gen_aux (current + secondsPerWeek) end_date
      else
        [] := by
  by_cases h : current < end_date
  · have hfuel : (end_date - current).toNat = ((end_date - current).toNat - 1) + 1 := by
      omega
    rw [gen_aux, hfuel]
    simp only [gen_go, if_pos h, if_pos h]
    refine congrArg _ ?_
    refine gen_go_congr end_date _ _ _ ?_ ?_
    · simp only [secondsPerWeek]
      omega
    · exact le_rfl
  · have hfuel : (end_date - current).toNat = 0 := by omega
    rw [gen_aux, hfuel]
    simp [gen_go, h]

/-- Custom induction principle matching the `while` loop structure. -/
theorem gen_aux_induction (motive : Int → Int → Prop)
    (step : ∀ c e, c < e → motive (c + secondsPerWeek) e → motive c e)
    (base : ∀ c e, ¬ c < e → motive c e) : ∀ c e, motive c e := by
  intro c e
  have H : ∀ n c, (e - c).toNat ≤ n → motive c e := by
    intro n
    induction n with
    | zero =>
        intro c hc
        exact base c e (by omega)
    | succ n ih =>
        intro c hc
        by_cases h : c < e
        · refine step c e h (ih (c + secondsPerWeek) ?_)
          simp only [secondsPerWeek]
          omega
        · exact base c e h
  exact H (e - c).toNat c le_rfl

theorem gen_aux_of_not_lt {c e : Int} (h : ¬ c < e) : gen_aux c e = [] := by
  rw [gen_aux_eq, if_neg h]

theorem gen_aux_of_lt {c e : Int} (h : c < e) :
    gen_aux c e = (c, c + secondsPerWeek) :: gen_aux (c + secondsPerWeek) e := by
  rw [gen_aux_eq, if_pos h]

/-- Every interval yielded by the loop starts a whole number of weeks after
`current`, starts before `end_date`, and ends one week after it starts. -/
theorem mem_gen_aux {c e : Int} {iv : Int × Int} (h : iv ∈ gen_aux c e) :
    ∃ k : Nat, iv.1 = c + k * secondsPerWeek ∧ iv.1 < e ∧
      iv.2 = iv.1 + secondsPerWeek := by
  revert h
  induction c, e using gen_aux_induction with
  | step c e hlt ih =>
      intro h
      rw [gen_aux_of_lt hlt] at h
      rcases List.mem_cons.mp h with h | h
      · refine ⟨0, ?_, ?_, ?_⟩
        · simp [h]
        · simpa [h] using hlt
        · simp [h]
      · obtain ⟨k, h1, h2, h3⟩ := ih h
        refine ⟨k + 1, ?_, h2, h3⟩
        rw [h1]
        push_cast
        ring
  | base c e hlt =>
      intro h
      rw [gen_aux_of_not_lt hlt] at h
      simp at h

theorem fdiv_day_eq_ediv (t : Int) : t.fdiv secondsPerDay = t / secondsPerDay :=
  Int.fdiv_eq_ediv t (by norm_num [secondsPerDay])

theorem weekday_eq (t : Int) : weekday t = (t / 86400) % 7 := by
  rw [weekday, fdiv_day_eq_ediv, secondsPerDay]

theorem align_to_monday_eq (t : Int) :
    align_to_monday t = t - 86400 * ((t / 86400) % 7) := by
  rw [align_to_monday, weekday_eq, secondsPerDay]

theorem interval_key_eq (t : Int) : interval_key t = t / 86400 := by
  rw [interval_key, fdiv_day_eq_ediv, secondsPerDay]

theorem align_to_monday_le (t : Int) : align_to_monday t ≤ t := by
  rw [align_to_monday_eq]
  omega

theorem lt_align_to_monday_add_week (t : Int) : t < align_to_monday t + secondsPerWeek := by
  rw [align_to_monday_eq, secondsPerWeek]
  omega

theorem weekday_align_to_monday (t : Int) : weekday (align_to_monday t) = 0 := by
  rw [weekday_eq, align_to_monday_eq]
  omega

/-- Every generated interval starts on a Monday, at the same time of day as
the anchor `start_date`. -/
theorem mem_generate_monday {s e : Int} {iv : Int × Int}
    (h : iv ∈ generate_stable_week_intervals s e) :
    weekday iv.1 = 0 ∧ iv.1 % 86400 = s % 86400 := by
  obtain ⟨k, h1, _, _⟩ := mem_gen_aux h
  rw [h1, weekday_eq, align_to_monday_eq, secondsPerWeek]
  constructor
  · omega
  · omega

/-- Every generated interval lies between the aligned anchor and `end_date`,
and ends exactly one week after it starts. -/
theorem mem_generate_bounds {s e : Int} {iv : Int × Int}
    (h : iv ∈ generate_stable_week_intervals s e) :
    align_to_monday s ≤ iv.1 ∧ iv.1 < e ∧ iv.2 = iv.1 + secondsPerWeek := by
  obtain ⟨k, h1, h2, h3⟩ := mem_gen_aux h
  refine ⟨?_, h2, h3⟩
  rw [h1, secondsPerWeek]
  have : (0 : Int) ≤ (k : Int) * 604800 := mul_nonneg (Int.natCast_nonneg k) (by norm_num)
  omega

/-- No generated interval is dropped by the range filter of
`intervals_to_fetch`: every generated interval ends strictly after
`start_date` and starts strictly before `end_date`. -/
theorem mem_generate_in_range {s e : Int} {iv : Int × Int}
    (h : iv ∈ generate_stable_week_intervals s e) :
    ¬ (iv.2 ≤ s ∨ iv.1 ≥ e) := by
  obtain ⟨h1, h2, h3⟩ := mem_generate_bounds h
  have h4 := lt_align_to_monday_add_week s
  rw [h3]
  push_neg
  constructor
  · have : secondsPerWeek = 604800 := rfl
    omega
  · omega

/-- Consecutive generated intervals are contiguous: each interval's end is
the next interval's start. -/
theorem gen_aux_chain (c e : Int) :
    List.Chain' (fun a b : Int × Int => a.2 = b.1) (gen_aux c e) := by
  induction c, e using gen_aux_induction with
  | step c e hlt ih =>
      rw [gen_aux_of_lt hlt]
      refine List.Chain'.cons' ih ?_
      intro y hy
      by_cases h2 : c + secondsPerWeek < e
      · rw [gen_aux_of_lt h2] at hy
        simp at hy
        subst hy
        rfl
      · rw [gen_aux_of_not_lt h2] at hy
        simp at hy
  | base c e hlt =>
      rw [gen_aux_of_not_lt hlt]
      exact List.chain'_nil

/-- Generated intervals are pairwise non-overlapping: any earlier interval
ends at or before any later interval starts. -/
theorem gen_aux_pairwise (c e : Int) :
    List.Pairwise (fun a b : Int × Int => a.2 ≤ b.1) (gen_aux c e) := by
  induction c, e using gen_aux_induction with
  | step c e hlt ih =>
      rw [gen_aux_of_lt hlt]
      refine List.Pairwise.cons ?_ ih
      intro b hb
      obtain ⟨k, h1, _, _⟩ := mem_gen_aux hb
      have : (0 : Int) ≤ (k : Int) * secondsPerWeek :=
        mul_nonneg (Int.natCast_nonneg k) (by norm_num [secondsPerWeek])
      omega
  | base c e hlt =>
      rw [gen_aux_of_not_lt hlt]
      exact List.Pairwise.nil

theorem generate_head {s e : Int} (h : align_to_monday s < e) :
    (generate_stable_week_intervals s e).head? =
      some (align_to_monday s, align_to_monday s + secondsPerWeek) := by
  rw [generate_stable_week_intervals, gen_aux_of_lt h]
  rfl

/-! ## Lemmas about the dict operations -/

section AListLemmas

variable {α β : Type} [DecidableEq α]

theorem alist_mem_cons (p : α × β) (m : List (α × β)) (k : α) :
    alist_mem (p :: m) k = (decide (p.1 = k) || alist_mem m k) := by
  simp [alist_mem]

theorem alist_get?_cons (p : α × β) (m : List (α × β)) (k : α) :
    alist_get? (p :: m) k = if p.1 = k then some p.2 else alist_get? m k := by
  by_cases h : p.1 = k
  · simp [alist_get?, List.find?_cons_of_pos, h]
  · simp [alist_get?, List.find?_cons_of_neg, h]

theorem alist_get?_isSome (m : List (α × β)) (k : α) :
    (alist_get? m k).isSome = alist_mem m k := by
  induction m with
  | nil => rfl
  | cons p m ih =>
      rw [alist_get?_cons, alist_mem_cons]
      by_cases h : p.1 = k
      · simp [h]
      · simp [h, ih]

theorem alist_get?_eq_none_of_not_mem {m : List (α × β)} {k : α}
    (h : alist_mem m k = false) : alist_get? m k = none := by
  have := alist_get?_isSome m k
  rw [h] at this
  exact Option.not_isSome_iff_eq_none.mp (by simp [this])

theorem alist_mem_of_get?_eq_some {m : List (α × β)} {k : α} {v : β}
    (h : alist_get? m k = some v) : alist_mem m k = true := by
  have := alist_get?_isSome m k
  rw [h] at this
  simpa using this.symm

theorem alist_mem_append (m1 m2 : List (α × β)) (x : α) :
    alist_mem (m1 ++ m2) x = (alist_mem m1 x || alist_mem m2 x) := by
  simp [alist_mem]

theorem alist_mem_singleton (k : α) (v : β) (x : α) :
    alist_mem [(k, v)] x = decide (x = k) := by
  simp [alist_mem, eq_comm]

theorem alist_mem_map_upd (m : List (α × β)) (k : α) (v : β) (x : α) :
    alist_mem (m.map fun p => if p.1 = k then (k, v) else p) x = alist_mem m x := by
  induction m with
  | nil => rfl
  | cons p m ih =>
      rw [List.map_cons]
      by_cases h : p.1 = k
      · rw [if_pos h, alist_mem_cons, alist_mem_cons, ih, h]
      · rw [if_neg h, alist_mem_cons, alist_mem_cons, ih]

theorem alist_mem_set (m : List (α × β)) (k : α) (v : β) (x : α) :
    alist_mem (alist_set m k v) x = (alist_mem m x || decide (x = k)) := by
  rw [alist_set]
  by_cases hm : alist_mem m k
  · rw [if_pos hm, alist_mem_map_upd]
    by_cases hx : x = k
    · subst hx
      simp [hm]
    · simp [hx]
  · rw [if_neg hm, alist_mem_append, alist_mem_singleton]

theorem alist_mem_pop (m : List (α × β)) (k : α) (x : α) :
    alist_mem (alist_pop m k) x = (alist_mem m x && decide (x ≠ k)) := by
  induction m with
  | nil => rfl
  | cons p m ih =>
      rw [alist_pop, List.filter_cons]
      rw [alist_pop] at ih
      by_cases h : p.1 = k
      · have hd : decide (p.1 ≠ k) = false := by simp [h]
        rw [hd, if_neg (by simp), ih, alist_mem_cons]
        by_cases hx : x = k
        · simp [hx]
        · have hpx : ¬ p.1 = x := fun hh => hx (hh.symm.trans h)
          simp [hpx]
      · have hd : decide (p.1 ≠ k) = true := by simp [h]
        rw [hd, if_pos rfl, alist_mem_cons, alist_mem_cons, ih]
        by_cases hpx : p.1 = x
        · subst hpx
          simp [h]
        · simp [hpx]

theorem alist_get?_map_upd_self {m : List (α × β)} {k : α} (v : β)
    (hm : alist_mem m k = true) :
    alist_get? (m.map fun p => if p.1 = k then (k, v) else p) k = some v := by
  induction m with
  | nil => simp [alist_mem] at hm
  | cons p m ih =>
      rw [List.map_cons]
      by_cases h : p.1 = k
      · rw [if_pos h, alist_get?_cons, if_pos rfl]
      · rw [if_neg h, alist_get?_cons, if_neg h]
        rw [alist_mem_cons] at hm
        simp only [h, decide_False, Bool.false_or] at hm
        exact ih hm

theorem alist_get?_append_of_not_mem {m1 : List (α × β)} (m2 : List (α × β)) {x : α}
    (hm : alist_mem m1 x = false) :
    alist_get? (m1 ++ m2) x = alist_get? m2 x := by
  induction m1 with
  | nil => rfl
  | cons p m1 ih =>
      rw [alist_mem_cons, Bool.or_eq_false_iff] at hm
      rw [List.cons_append, alist_get?_cons, if_neg (by simpa using hm.1)]
      exact ih hm.2

theorem alist_get?_set_self (m : List (α × β)) (k : α) (v : β) :
    alist_get? (alist_set m k v) k = some v := by
  rw [alist_set]
  by_cases hm : alist_mem m k
  · rw [if_pos hm]
    exact alist_get?_map_upd_self v hm
  · rw [if_neg hm, alist_get?_append_of_not_mem _ (by simpa using hm)]
    rw [alist_get?_cons, if_pos rfl]

theorem alist_get?_map_upd_ne (m : List (α × β)) (k : α) (v : β) {x : α} (hx : x ≠ k) :
    alist_get? (m.map fun p => if p.1 = k then (k, v) else p) x = alist_get? m x := by
  induction m with
  | nil => rfl
  | cons p m ih =>
      rw [List.map_cons]
      by_cases h : p.1 = k
      · rw [if_pos h, alist_get?_cons, alist_get?_cons]
        have h1 : ¬ (k = x) := fun hh => hx hh.symm
        have h2 : ¬ (p.1 = x) := fun hh => hx (hh.symm.trans h)
        rw [if_neg h1, if_neg h2, ih]
      · rw [if_neg h, alist_get?_cons, alist_get?_cons, ih]

theorem alist_get?_append_single_ne (m : List (α × β)) (k : α) (v : β) {x : α}
    (hx : x ≠ k) : alist_get? (m ++ [(k, v)]) x = alist_get? m x := by
  induction m with
  | nil =>
      rw [List.nil_append, alist_get?_cons, if_neg (fun hh => hx hh.symm)]
  | cons p m ih =>
      rw [List.cons_append, alist_get?_cons, alist_get?_cons]
      by_cases h : p.1 = x
      · rw [if_pos h, if_pos h]
      · rw [if_neg h, if_neg h, ih]

theorem alist_get?_set_ne (m : List (α × β)) (k : α) (v : β) {x : α} (hx : x ≠ k) :
    alist_get? (alist_set m k v) x = alist_get? m x := by
  rw [alist_set]
  by_cases hm : alist_mem m k
  · rw [if_pos hm]
    exact alist_get?_map_upd_ne m k v hx
  · rw [if_neg hm]
    exact alist_get?_append_single_ne m k v hx

end AListLemmas


/-! ## Lemmas about the reconciliation loops -/

theorem process_interval_meta (api : Int → Int → ApiResponse) (now : Int → String)
    (c : Cache) (iv : Int × Int × Int) :
    (process_interval api now c iv).meta = c.meta := rfl

theorem process_interval_intervals (api : Int → Int → ApiResponse) (now : Int → String)
    (c : Cache) (iv : Int × Int × Int) :
    (process_interval api now c iv).intervals =
      alist_set c.intervals iv.2.2 { fetched_at := now iv.2.2 } := rfl

theorem process_interval_systems (api : Int → Int → ApiResponse) (now : Int → String)
    (c : Cache) (iv : Int × Int × Int) :
    (process_interval api now c iv).systems =
      (get_first_discoveries (api iv.1 iv.2.1)).foldl merge_observation c.systems := rfl

theorem run_intervals_nil (api : Int → Int → ApiResponse) (now : Int → String)
    (c : Cache) : run_intervals api now c [] = (c, []) := rfl

theorem run_intervals_cons (api : Int → Int → ApiResponse) (now : Int → String)
    (c : Cache) (iv : Int × Int × Int) (rest : List (Int × Int × Int)) :
    run_intervals api now c (iv :: rest) =
      ((run_intervals api now (process_interval api now c iv) rest).1,
        process_interval api now c iv ::
          (run_intervals api now (process_interval api now c iv) rest).2) := rfl

theorem run_intervals_meta (api : Int → Int → ApiResponse) (now : Int → String)
    (c : Cache) (l : List (Int × Int × Int)) :
    (run_intervals api now c l).1.meta = c.meta := by
  induction l generalizing c with
  | nil => rfl
  | cons iv rest ih =>
      rw [run_intervals_cons]
      exact (ih (process_interval api now c iv)).trans (process_interval_meta api now c iv)

theorem run_intervals_saves_meta (api : Int → Int → ApiResponse) (now : Int → String)
    (c : Cache) (l : List (Int × Int × Int)) :
    ∀ x ∈ (run_intervals api now c l).2, x.meta = c.meta := by
  induction l generalizing c with
  | nil =>
      intro x hx
      simp [run_intervals_nil] at hx
  | cons iv rest ih =>
      intro x hx
      rw [run_intervals_cons] at hx
      rcases List.mem_cons.mp hx with h | h
      · rw [h]
        exact process_interval_meta api now c iv
      · exact (ih (process_interval api now c iv) x h).trans
          (process_interval_meta api now c iv)

theorem run_intervals_mem_mono (api : Int → Int → ApiResponse) (now : Int → String)
    {c : Cache} (l : List (Int × Int × Int)) {k : Int}
    (h : alist_mem c.intervals k = true) :
    alist_mem (run_intervals api now c l).1.intervals k = true := by
  induction l generalizing c with
  | nil => exact h
  | cons iv rest ih =>
      rw [run_intervals_cons]
      refine ih ?_
      rw [process_interval_intervals, alist_mem_set, h, Bool.true_or]

theorem run_intervals_marks (api : Int → Int → ApiResponse) (now : Int → String)
    {c : Cache} {l : List (Int × Int × Int)} {iv : Int × Int × Int} (h : iv ∈ l) :
    alist_mem (run_intervals api now c l).1.intervals iv.2.2 = true := by
  induction l generalizing c with
  | nil => cases h
  | cons jv rest ih =>
      rw [run_intervals_cons]
      rcases List.mem_cons.mp h with h1 | h1
      · subst h1
        refine run_intervals_mem_mono api now rest ?_
        rw [process_interval_intervals, alist_mem_set]
        simp
      · exact ih h1

theorem run_intervals_saves_eq (api : Int → Int → ApiResponse) (now : Int → String)
    (c : Cache) (l : List (Int × Int × Int)) :
    (run_intervals api now c l).2 =
      (List.range l.length).map
        (fun j => (run_intervals api now c (l.take (j + 1))).1) := by
  induction l generalizing c with
  | nil => rfl
  | cons iv rest ih =>
      rw [List.length_cons, List.range_succ_eq_map, List.map_cons, List.map_map]
      rw [run_intervals_cons]
      have hhead : (run_intervals api now c ((iv :: rest).take (0 + 1))).1 =
          process_interval api now c iv := rfl
      rw [hhead]
      have htail : ∀ j : Nat,
          (run_intervals api now c ((iv :: rest).take (j + 1 + 1))).1 =
            (run_intervals api now (process_interval api now c iv) (rest.take (j + 1))).1 := by
        intro j
        rw [List.take_succ_cons, run_intervals_cons]
      have hmap :
          ((List.range rest.length).map
            ((fun j => (run_intervals api now c ((iv :: rest).take (j + 1))).1) ∘ Nat.succ)) =
          (List.range rest.length).map
            (fun j => (run_intervals api now (process_interval api now c iv)
              (rest.take (j + 1))).1) := by
        refine List.map_congr_left ?_
        intro j _
        simp only [Function.comp]
        exact htail j
      rw [hmap, ← ih]

theorem foldl_pop_mem (l : List (Int × Int)) (m : List (Int × IntervalRec)) (k : Int) :
    alist_mem (l.foldl (fun m iv => alist_pop m (interval_key iv.1)) m) k =
      (alist_mem m k && !(l.any fun iv => decide (interval_key iv.1 = k))) := by
  induction l generalizing m with
  | nil => simp
  | cons iv rest ih =>
      rw [List.foldl_cons, ih, alist_mem_pop, List.any_cons]
      by_cases h : interval_key iv.1 = k
      · simp [h]
      · have h2 : decide (k ≠ interval_key iv.1) = true := by
          simp
          exact fun hh => h hh.symm
        simp only [h2, Bool.and_true]
        simp [h]

theorem invalidate_safety_meta (c : Cache) (e w : Int) :
    (invalidate_safety c e w).meta = c.meta := rfl

theorem invalidate_safety_systems (c : Cache) (e w : Int) :
    (invalidate_safety c e w).systems = c.systems := rfl

theorem invalidate_safety_mem (c : Cache) (e w k : Int) :
    alist_mem (invalidate_safety c e w).intervals k =
      (alist_mem c.intervals k &&
        !((generate_stable_week_intervals
            (align_to_monday (e - secondsPerDay * (7 * w))) e).any
          fun iv => decide (interval_key iv.1 = k))) := by
  rw [invalidate_safety]
  exact foldl_pop_mem _ c.intervals k

theorem intervals_to_fetch_eq (cache : Cache) (s e : Int) :
    intervals_to_fetch cache s e =
      collect_candidates (candidate_step cache s e)
        (generate_stable_week_intervals s e) := by
  rw [intervals_to_fetch]
  have h : ∀ (l : List (Int × Int)) (acc : List (Int × Int × Int)),
      l.foldl (fun acc iv =>
        if iv.2 ≤ s ∨ iv.1 ≥ e then acc
        else if alist_mem cache.intervals (interval_key iv.1) then acc
        else acc ++ [(iv.1, iv.2, interval_key iv.1)]) acc =
      acc ++ collect_candidates (candidate_step cache s e) l := by
    intro l
    induction l with
    | nil =>
        intro acc
        simp [collect_candidates]
    | cons iv rest ih =>
        intro acc
        rw [List.foldl_cons, collect_candidates]
        have hstep : (if iv.2 ≤ s ∨ iv.1 ≥ e then acc
            else if alist_mem cache.intervals (interval_key iv.1) then acc
            else acc ++ [(iv.1, iv.2, interval_key iv.1)]) =
            acc ++ candidate_step cache s e iv := by
          rw [candidate_step]
          by_cases h1 : iv.2 ≤ s ∨ iv.1 ≥ e
          · rw [if_pos h1, if_pos h1, List.append_nil]
          · rw [if_neg h1, if_neg h1]
            by_cases h2 : alist_mem cache.intervals (interval_key iv.1)
            · rw [if_pos h2, if_pos h2, List.append_nil]
            · rw [if_neg h2, if_neg h2]
        rw [hstep, ih, List.append_assoc]
  simpa using h (generate_stable_week_intervals s e) []

theorem mem_collect_candidates {f : Int × Int → List (Int × Int × Int)}
    {l : List (Int × Int)} {x : Int × Int × Int} :
    x ∈ collect_candidates f l ↔ ∃ iv ∈ l, x ∈ f iv := by
  induction l with
  | nil => simp [collect_candidates]
  | cons iv rest ih =>
      simp only [collect_candidates, List.mem_append, ih, List.mem_cons]
      constructor
      · rintro (h | ⟨jv, hj, hx⟩)
        · exact ⟨iv, Or.inl rfl, h⟩
        · exact ⟨jv, Or.inr hj, hx⟩
      · rintro ⟨jv, hj | hj, hx⟩
        · subst hj
          exact Or.inl hx
        · exact Or.inr ⟨jv, hj, hx⟩

theorem collect_candidates_congr {f g : Int × Int → List (Int × Int × Int)}
    {l : List (Int × Int)} (h : ∀ iv ∈ l, f iv = g iv) :
    collect_candidates f l = collect_candidates g l := by
  induction l with
  | nil => rfl
  | cons iv rest ih =>
      rw [collect_candidates, collect_candidates, h iv (List.mem_cons_self iv rest),
        ih fun jv hj => h jv (List.mem_cons_of_mem iv hj)]

theorem update_candidates_eq (api : Int → Int → ApiResponse) (now : Int → String)
    (s e w : Int) (st : Option Cache) :
    (update_discoveries_cache api now s e w st).candidates =
      intervals_to_fetch (invalidate_safety (loaded st) e w) s e := rfl

theorem update_cache_eq (api : Int → Int → ApiResponse) (now : Int → String)
    (s e w : Int) (st : Option Cache) :
    (update_discoveries_cache api now s e w st).cache =
      (run_intervals api now (invalidate_safety (loaded st) e w)
        (intervals_to_fetch (invalidate_safety (loaded st) e w) s e)).1 := by
  simp only [update_discoveries_cache]

theorem update_saves_eq (api : Int → Int → ApiResponse) (now : Int → String)
    (s e w : Int) (st : Option Cache) :
    (update_discoveries_cache api now s e w st).saves =
      (run_intervals api now (invalidate_safety (loaded st) e w)
        (intervals_to_fetch (invalidate_safety (loaded st) e w) s e)).2 := by
  simp only [update_discoveries_cache]

/-! ## Lemmas about the entity record merger -/

theorem pystr_lt_irrefl (a : String) : ¬ pystr_lt a a :=
  lt_irrefl a.data

theorem pystr_lt_asymm {a b : String} (h : pystr_lt a b) : ¬ pystr_lt b a :=
  lt_asymm h

theorem pystr_eq_of_not_lt {a b : String} (h1 : ¬ pystr_lt a b) (h2 : ¬ pystr_lt b a) :
    a = b := by
  apply String.ext
  exact le_antisymm (not_lt.mp h2) (not_lt.mp h1)

theorem merge_observation_of_get?_none {m : List (String × SystemRec)}
    {obs : String × String × String} (h : alist_get? m obs.1 = none) :
    merge_observation m obs =
      alist_set m obs.1 { name := obs.2.1, firstDiscoveryDate := obs.2.2 } := by
  simp only [merge_observation, h]

theorem merge_observation_of_get?_some {m : List (String × SystemRec)}
    {obs : String × String × String} {ex : SystemRec}
    (h : alist_get? m obs.1 = some ex) :
    merge_observation m obs =
      if pystr_lt obs.2.2 ex.firstDiscoveryDate then
        alist_set m obs.1 { ex with firstDiscoveryDate := obs.2.2 }
      else
        m := by
  simp only [merge_observation, h]

/-- One merge step never deletes an entity key and never moves its
`firstDiscoveryDate` later. -/
theorem merge_observation_mono (m : List (String × SystemRec))
    (obs : String × String × String) (id : String) (rec : SystemRec)
    (h : alist_get? m id = some rec) :
    ∃ rec2 : SystemRec, alist_get? (merge_observation m obs) id = some rec2 ∧
      rec2.firstDiscoveryDate.data ≤ rec.firstDiscoveryDate.data := by
  cases hg : alist_get? m obs.1 with
  | none =>
      rw [merge_observation_of_get?_none hg]
      have hne : id ≠ obs.1 := by
        intro hh
        rw [hh, hg] at h
        cases h
      rw [alist_get?_set_ne _ _ _ hne, h]
      exact ⟨rec, rfl, le_refl _⟩
  | some ex =>
      rw [merge_observation_of_get?_some hg]
      by_cases hlt : pystr_lt obs.2.2 ex.firstDiscoveryDate
      · rw [if_pos hlt]
        by_cases hid : id = obs.1
        · subst hid
          rw [h] at hg
          injection hg with hg
          subst hg
          refine ⟨_, alist_get?_set_self _ _ _, ?_⟩
          exact le_of_lt hlt
        · rw [alist_get?_set_ne _ _ _ hid, h]
          exact ⟨rec, rfl, le_refl _⟩
      · rw [if_neg hlt]
        exact ⟨rec, h, le_refl _⟩

/-- Folding any list of observations never deletes an entity key and never
moves its `firstDiscoveryDate` later. -/
theorem foldl_merge_mono (l : List (String × String × String))
    (m : List (String × SystemRec)) (id : String) (rec : SystemRec)
    (h : alist_get? m id = some rec) :
    ∃ rec2 : SystemRec, alist_get? (l.foldl merge_observation m) id = some rec2 ∧
      rec2.firstDiscoveryDate.data ≤ rec.firstDiscoveryDate.data := by
  induction l generalizing m rec with
  | nil => exact ⟨rec, h, le_refl _⟩
  | cons obs rest ih =>
      rw [List.foldl_cons]
      obtain ⟨rec1, h1, hle1⟩ := merge_observation_mono m obs id rec h
      obtain ⟨rec2, h2, hle2⟩ := ih (merge_observation m obs) rec1 h1
      exact ⟨rec2, h2, le_trans hle2 hle1⟩

/-- The whole fetch loop never deletes an entity key and never moves its
`firstDiscoveryDate` later. -/
theorem run_intervals_systems_mono (api : Int → Int → ApiResponse) (now : Int → String)
    (c : Cache) (l : List (Int × Int × Int)) (id : String) (rec : SystemRec)
    (h : alist_get? c.systems id = some rec) :
    ∃ rec2 : SystemRec,
      alist_get? (run_intervals api now c l).1.systems id = some rec2 ∧
      rec2.firstDiscoveryDate.data ≤ rec.firstDiscoveryDate.data := by
  induction l generalizing c rec with
  | nil => exact ⟨rec, h, le_refl _⟩
  | cons iv rest ih =>
      rw [run_intervals_cons]
      have hsys := process_interval_systems api now c iv
      obtain ⟨rec1, h1, hle1⟩ :=
        foldl_merge_mono (get_first_discoveries (api iv.1 iv.2.1)) c.systems id rec h
      rw [← hsys] at h1
      obtain ⟨rec2, h2, hle2⟩ := ih (process_interval api now c iv) rec1 h1
      exact ⟨rec2, h2, le_trans hle2 hle1⟩

theorem alist_set_singleton_self {α β : Type} [DecidableEq α] (k : α) (r v : β) :
    alist_set [(k, r)] k v = [(k, v)] := by
  simp [alist_set, alist_mem]

theorem merge_observation_nil (id n d : String) :
    merge_observation [] (id, n, d) = [(id, { name := n, firstDiscoveryDate := d })] := by
  have h : alist_get? ([] : List (String × SystemRec)) (id, n, d).1 = none := rfl
  rw [merge_observation_of_get?_none h]
  rfl

theorem merge_observation_singleton (id : String) (r : SystemRec) (n d : String) :
    merge_observation [(id, r)] (id, n, d) =
      if pystr_lt d r.firstDiscoveryDate then
        [(id, { r with firstDiscoveryDate := d })]
      else
        [(id, r)] := by
  have hg : alist_get? [(id, r)] id = some r := by
    rw [alist_get?_cons, if_pos rfl]
  rw [merge_observation_of_get?_some hg]
  by_cases hlt : pystr_lt d r.firstDiscoveryDate
  · rw [if_pos hlt, if_pos hlt, alist_set_singleton_self]
  · rw [if_neg hlt, if_neg hlt]

theorem foldl_pop_nil (l : List (Int × Int)) :
    l.foldl (fun m iv => alist_pop m (interval_key iv.1))
      ([] : List (Int × IntervalRec)) = [] := by
  induction l with
  | nil => rfl
  | cons iv rest ih => exact ih

theorem collect_candidates_map (g : Int × Int → Int × Int × Int) (l : List (Int × Int)) :
    collect_candidates (fun iv => [g iv]) l = l.map g := by
  induction l with
  | nil => rfl
  | cons iv rest ih => rw [collect_candidates, ih, List.map_cons, List.singleton_append]

/-! ## Claim theorems -/

/-- C2 counterexample: with an anchor of Monday 01:00:00 UTC (t = 3600), the
generated interval starts at Monday 01:00:00, not at a Monday 00:00:00 UTC
instant, so "start equals the most recent Monday 00:00:00 UTC" fails. -/
theorem generate_not_monday_midnight_cex :
    ¬ ∀ iv ∈ generate_stable_week_intervals 3600 604800, is_monday_midnight iv.1 := by
  decide

/-- C2 (amended): every yielded interval starts on a Monday at the anchor's
own time of day (hence at Monday 00:00:00 UTC exactly when the anchor is at
midnight), ends 7 days after its start, the first interval starts at the
Monday alignment of the anchor (the most recent Monday-aligned instant at or
before the anchor), and consecutive intervals are contiguous and
non-overlapping. -/
theorem generate_intervals_aligned (s e : Int) :
    (∀ iv ∈ generate_stable_week_intervals s e,
        weekday iv.1 = 0 ∧ iv.1 % 86400 = s % 86400 ∧ iv.2 = iv.1 + secondsPerWeek) ∧
    (∀ iv : Int × Int, (generate_stable_week_intervals s e).head? = some iv →
        iv.1 = align_to_monday s ∧ align_to_monday s ≤ s ∧
          s < align_to_monday s + secondsPerWeek) ∧
    List.Chain' (fun a b : Int × Int => a.2 = b.1) (generate_stable_week_intervals s e) ∧
    List.Pairwise (fun a b : Int × Int => a.2 ≤ b.1) (generate_stable_week_intervals s e) := by
  refine ⟨?_, ?_, gen_aux_chain _ _, gen_aux_pairwise _ _⟩
  · intro iv hiv
    obtain ⟨hw, hd⟩ := mem_generate_monday hiv
    obtain ⟨_, _, hwk⟩ := mem_generate_bounds hiv
    exact ⟨hw, hd, hwk⟩
  · intro iv hh
    by_cases h : align_to_monday s < e
    · rw [generate_head h] at hh
      injection hh with hh
      subst hh
      exact ⟨rfl, align_to_monday_le s, lt_align_to_monday_add_week s⟩
    · rw [generate_stable_week_intervals, gen_aux_of_not_lt h] at hh
      simp at hh

/-- C2 witness: anchor Tuesday 01:00:00 UTC (t = 90000); the first interval
is (3600, 608400), starting on Monday at the anchor's time of day. -/
theorem generate_intervals_aligned_witness :
    (weekday (3600 : Int) = 0 ∧ (3600 : Int) % 86400 = 90000 % 86400 ∧
      (608400 : Int) = 3600 + secondsPerWeek) ∧
    ((3600 : Int) = align_to_monday 90000 ∧ align_to_monday 90000 ≤ 90000 ∧
      (90000 : Int) < align_to_monday 90000 + secondsPerWeek) :=
  ⟨(generate_intervals_aligned 90000 700000).1 (3600, 608400) (by decide),
    (generate_intervals_aligned 90000 700000).2.1 (3600, 608400) (by decide)⟩

/-- C3 counterexample: with start_date = end_date = Sunday 00:00:00 UTC
(t = 518400), the candidate list is NOT empty: the Monday-aligned week
containing the bound is generated, survives the range filter, and is fetched
from an empty store. -/
theorem reconcile_equal_bounds_cex :
    ¬ ((update_discoveries_cache (fun _ _ => ApiResponse.failure) (fun _ => "t")
        518400 518400 0 none).candidates = []) := by
  decide

/-- C3 (amended): the run is a no-op (empty candidate list, zero fetches,
zero persists, entity map returned unchanged) exactly under the stronger
condition that the Monday alignment of start_date is at or after end_date;
`start_date >= end_date` alone does not suffice when start_date lies
mid-week. -/
theorem reconcile_noop_of_aligned_start_ge_end (api : Int → Int → ApiResponse)
    (now : Int → String) (s e w : Int) (st : Option Cache)
    (h : e ≤ align_to_monday s) :
    (update_discoveries_cache api now s e w st).candidates = [] ∧
    (update_discoveries_cache api now s e w st).saves = [] ∧
    (update_discoveries_cache api now s e w st).cache.systems = (loaded st).systems := by
  have hgen : generate_stable_week_intervals s e = [] := by
    rw [generate_stable_week_intervals]
    exact gen_aux_of_not_lt (by omega)
  have htodo : intervals_to_fetch (invalidate_safety (loaded st) e w) s e = [] := by
    rw [intervals_to_fetch_eq, hgen]
    rfl
  refine ⟨?_, ?_, ?_⟩
  · rw [update_candidates_eq, htodo]
  · rw [update_saves_eq, htodo, run_intervals_nil]
  · rw [update_cache_eq, htodo, run_intervals_nil]
    exact invalidate_safety_systems _ _ _

/-- C3 witness: start_date one week after end_date, both Monday-aligned. -/
theorem reconcile_noop_witness :
    (update_discoveries_cache (fun _ _ => ApiResponse.failure) (fun _ => "t")
      604800 0 2 none).candidates = [] ∧
    (update_discoveries_cache (fun _ _ => ApiResponse.failure) (fun _ => "t")
      604800 0 2 none).saves = [] ∧
    (update_discoveries_cache (fun _ _ => ApiResponse.failure) (fun _ => "t")
      604800 0 2 none).cache.systems = (loaded none).systems :=
  reconcile_noop_of_aligned_start_ge_end _ _ 604800 0 2 none (by decide)

/-- C4 counterexample: merging the two observations of entity "10" in the
two orders yields records with the same earliest date but different names
(first-writer name wins), so the resulting records are not identical. -/
theorem merge_order_name_cex :
    alist_get? (merge_observation (merge_observation [] ("10", "Sol", "2025-01-10"))
        ("10", "SolB", "2025-01-05")) "10" ≠
      alist_get? (merge_observation (merge_observation [] ("10", "SolB", "2025-01-05"))
        ("10", "Sol", "2025-01-10")) "10" := by
  decide

/-- C4 (amended): merging two observations of the same identifier into an
absent entry pins, in either order, to the record whose `firstDiscoveryDate`
is the earlier of the two dates and whose name is the FIRST-merged
observation's name; the two orders therefore agree on `firstDiscoveryDate`,
and the full records are identical exactly when the two observations carry
the same name. -/
theorem merge_two_orders_first_seen (id n1 n2 d1 d2 : String) :
    alist_get? (merge_observation (merge_observation [] (id, n1, d1)) (id, n2, d2)) id =
      some { name := n1, firstDiscoveryDate := if pystr_lt d2 d1 then d2 else d1 } ∧
    alist_get? (merge_observation (merge_observation [] (id, n2, d2)) (id, n1, d1)) id =
      some { name := n2, firstDiscoveryDate := if pystr_lt d1 d2 then d1 else d2 } ∧
    (if pystr_lt d2 d1 then d2 else d1) = (if pystr_lt d1 d2 then d1 else d2) ∧
    (n1 = n2 →
      merge_observation (merge_observation [] (id, n1, d1)) (id, n2, d2) =
        merge_observation (merge_observation [] (id, n2, d2)) (id, n1, d1)) := by
  rw [merge_observation_nil, merge_observation_nil,
    merge_observation_singleton, merge_observation_singleton]
  dsimp only
  refine ⟨?_, ?_, ?_, ?_⟩
  · by_cases h21 : pystr_lt d2 d1
    · rw [if_pos h21, if_pos h21, alist_get?_cons, if_pos rfl]
    · rw [if_neg h21, if_neg h21, alist_get?_cons, if_pos rfl]
  · by_cases h12 : pystr_lt d1 d2
    · rw [if_pos h12, if_pos h12, alist_get?_cons, if_pos rfl]
    · rw [if_neg h12, if_neg h12, alist_get?_cons, if_pos rfl]
  · by_cases h21 : pystr_lt d2 d1 <;> by_cases h12 : pystr_lt d1 d2
    · exact absurd h12 (pystr_lt_asymm h21)
    · rw [if_pos h21, if_neg h12]
    · rw [if_neg h21, if_pos h12]
    · rw [if_neg h21, if_neg h12]
      exact pystr_eq_of_not_lt h12 h21
  · intro hn
    subst hn
    by_cases h21 : pystr_lt d2 d1 <;> by_cases h12 : pystr_lt d1 d2
    · exact absurd h12 (pystr_lt_asymm h21)
    · rw [if_pos h21, if_neg h12]
    · rw [if_neg h21, if_pos h12]
    · rw [if_neg h21, if_neg h12, pystr_eq_of_not_lt h12 h21]

/-- C4 witness: the spec's own example dates.  With distinct names, both
orders yield `first_seen_at = "2025-01-05"` and keep the first-merged name;
with equal names the two orders produce the identical map. -/
theorem merge_two_orders_first_seen_witness :
    alist_get? (merge_observation (merge_observation [] ("10", "Sol", "2025-01-10"))
        ("10", "SolB", "2025-01-05")) "10" =
      some { name := "Sol", firstDiscoveryDate := "2025-01-05" } ∧
    alist_get? (merge_observation (merge_observation [] ("10", "SolB", "2025-01-05"))
        ("10", "Sol", "2025-01-10")) "10" =
      some { name := "SolB", firstDiscoveryDate := "2025-01-05" } ∧
    merge_observation (merge_observation [] ("10", "Sol", "2025-01-10"))
        ("10", "Sol", "2025-01-05") =
      merge_observation (merge_observation [] ("10", "Sol", "2025-01-05"))
        ("10", "Sol", "2025-01-10") := by
  refine ⟨?_, ?_,
    (merge_two_orders_first_seen "10" "Sol" "Sol" "2025-01-10" "2025-01-05").2.2.2 rfl⟩
  · have h := (merge_two_orders_first_seen "10" "Sol" "SolB" "2025-01-10" "2025-01-05").1
    rw [if_pos (show pystr_lt "2025-01-05" "2025-01-10" by decide)] at h
    exact h
  · have h := (merge_two_orders_first_seen "10" "Sol" "SolB" "2025-01-10" "2025-01-05").2.1
    rw [if_neg (show ¬ pystr_lt "2025-01-10" "2025-01-05" by decide)] at h
    exact h

/-- C5: applying the Entity Record Merger twice with the same observation
yields exactly the same entity map (hence the same entity record) as
applying it once. -/
theorem merge_observation_idempotent (m : List (String × SystemRec))
    (obs : String × String × String) :
    merge_observation (merge_observation m obs) obs = merge_observation m obs := by
  cases hg : alist_get? m obs.1 with
  | none =>
      rw [merge_observation_of_get?_none hg]
      have h2 : alist_get? (alist_set m obs.1
          { name := obs.2.1, firstDiscoveryDate := obs.2.2 }) obs.1 =
          some { name := obs.2.1, firstDiscoveryDate := obs.2.2 } :=
        alist_get?_set_self _ _ _
      rw [merge_observation_of_get?_some h2]
      rw [if_neg (pystr_lt_irrefl obs.2.2)]
  | some ex =>
      rw [merge_observation_of_get?_some hg]
      by_cases hlt : pystr_lt obs.2.2 ex.firstDiscoveryDate
      · rw [if_pos hlt]
        have h2 : alist_get? (alist_set m obs.1
            { ex with firstDiscoveryDate := obs.2.2 }) obs.1 =
            some { ex with firstDiscoveryDate := obs.2.2 } :=
          alist_get?_set_self _ _ _
        rw [merge_observation_of_get?_some h2, if_neg (pystr_lt_irrefl obs.2.2)]
      · rw [if_neg hlt, merge_observation_of_get?_some hg, if_neg hlt]

/-- C6: across a whole reconciliation run, an entity present in the loaded
store is never deleted, and its `firstDiscoveryDate` never moves later
(lexicographic comparison of the canonical timestamp strings). -/
theorem update_first_seen_monotone (api : Int → Int → ApiResponse) (now : Int → String)
    (s e w : Int) (c : Cache) (id : String) (rec : SystemRec)
    (h : alist_get? c.systems id = some rec) :
    ∃ rec2 : SystemRec,
      alist_get? (update_discoveries_cache api now s e w (some c)).cache.systems id =
        some rec2 ∧
      rec2.firstDiscoveryDate.data ≤ rec.firstDiscoveryDate.data := by
  rw [update_cache_eq]
  refine run_intervals_systems_mono _ _ _ _ _ _ ?_
  have hs : (invalidate_safety (loaded (some c)) e w).systems = (loaded (some c)).systems :=
    invalidate_safety_systems _ _ _
  rw [hs]
  exact h

/-- C6 witness: a store holding entity "10"; after a run with no candidates
the record is intact. -/
theorem update_first_seen_monotone_witness :
    ∃ rec2 : SystemRec,
      alist_get? (update_discoveries_cache (fun _ _ => ApiResponse.failure) (fun _ => "t")
        0 0 0 (some ⟨⟨1⟩, [],
          [("10", ⟨"Sol", "2025-06-03"⟩)]⟩)).cache.systems "10" = some rec2 ∧
      rec2.firstDiscoveryDate.data ≤ ("2025-06-03" : String).data :=
  update_first_seen_monotone _ _ 0 0 0 _ "10" ⟨"Sol", "2025-06-03"⟩ (by decide)

/-- C8: the run persists the whole store once per processed candidate
interval, in order: the j-th snapshot passed to `save_cache` is exactly the
store state after fully processing (fetch, merge, interval-record write) the
first j+1 candidate intervals, so the persist of one interval happens before
the next interval's fetch, and a crash loses at most one interval's work. -/
theorem saves_after_every_interval (api : Int → Int → ApiResponse) (now : Int → String)
    (s e w : Int) (st : Option Cache) :
    (update_discoveries_cache api now s e w st).saves =
      (List.range (update_discoveries_cache api now s e w st).candidates.length).map
        (fun j => (run_intervals api now (invalidate_safety (loaded st) e w)
          ((update_discoveries_cache api now s e w st).candidates.take (j + 1))).1) ∧
    (update_discoveries_cache api now s e w st).saves.length =
      (update_discoveries_cache api now s e w st).candidates.length := by
  constructor
  · rw [update_saves_eq, update_candidates_eq]
    exact run_intervals_saves_eq _ _ _ _
  · rw [update_saves_eq, update_candidates_eq, run_intervals_saves_eq]
    simp

/-- C9: with an absent (or falsy) store file the skeleton state is used, and
every generated interval in range becomes a candidate (cold-start full
backfill). -/
theorem cold_start_full_backfill (api : Int → Int → ApiResponse) (now : Int → String)
    (s e w : Int) :
    loaded none = skeleton_cache ∧
    (update_discoveries_cache api now s e w none).candidates =
      (generate_stable_week_intervals s e).map fun iv => (iv.1, iv.2, interval_key iv.1) := by
  refine ⟨rfl, ?_⟩
  rw [update_candidates_eq, intervals_to_fetch_eq]
  have hint : (invalidate_safety (loaded none) e w).intervals = [] := foldl_pop_nil _
  have hstep : ∀ iv ∈ generate_stable_week_intervals s e,
      candidate_step (invalidate_safety (loaded none) e w) s e iv =
        [(iv.1, iv.2, interval_key iv.1)] := by
    intro iv hiv
    rw [candidate_step, if_neg (mem_generate_in_range hiv), hint]
    rfl
  rw [collect_candidates_congr hstep, collect_candidates_map]

/-- C10: a reconciliation run never touches the `meta` field of a loaded
store: the final state and every persisted snapshot keep the loaded `meta`
(including its version) unchanged. -/
theorem update_meta_unchanged (api : Int → Int → ApiResponse) (now : Int → String)
    (s e w : Int) (c : Cache) :
    (update_discoveries_cache api now s e w (some c)).cache.meta = c.meta ∧
    ∀ x ∈ (update_discoveries_cache api now s e w (some c)).saves, x.meta = c.meta := by
  constructor
  · rw [update_cache_eq]
    exact (run_intervals_meta _ _ _ _).trans (invalidate_safety_meta _ _ _)
  · rw [update_saves_eq]
    intro x hx
    exact (run_intervals_saves_meta _ _ _ _ x hx).trans (invalidate_safety_meta _ _ _)

/-- C10 witness: a store with meta version 7 keeps it through a run. -/
theorem update_meta_unchanged_witness :
    (update_discoveries_cache (fun _ _ => ApiResponse.ok 100 []) (fun _ => "t")
      0 604800 0 (some ⟨⟨7⟩, [], []⟩)).cache.meta = ⟨7⟩ :=
  (update_meta_unchanged _ _ 0 604800 0 ⟨⟨7⟩, [], []⟩).1

/-- C1 counterexample: a 4-week cold-start run in which every fetch fails
(the client raises) still writes an Interval Record for the failed interval
of week 0, and on an immediate re-run with the same bounds week 0 is NOT a
candidate again (only the trailing safety window is). -/
theorem failed_fetch_marked_cex :
    alist_mem (update_discoveries_cache (fun _ _ => ApiResponse.failure) (fun _ => "t")
      0 2419200 2 none).cache.intervals 0 = true ∧
    ((update_discoveries_cache (fun _ _ => ApiResponse.failure) (fun _ => "t")
        0 2419200 2
        (some (update_discoveries_cache (fun _ _ => ApiResponse.failure) (fun _ => "t")
          0 2419200 2 none).cache)).candidates.all
      fun t => decide (t.2.2 ≠ 0)) = true := by
  decide

/-- C1 (amended): a candidate interval whose fetch fails contributes zero
records (the entity map step is the identity), but the run still writes its
Interval Record and marks it fetched in the final store, so outside the
safety window it is not retried on the next run. -/
theorem failed_fetch_still_marked (api : Int → Int → ApiResponse) (now : Int → String)
    (s e w : Int) (st : Option Cache) (iv : Int × Int × Int)
    (hiv : iv ∈ (update_discoveries_cache api now s e w st).candidates)
    (hfail : get_first_discoveries (api iv.1 iv.2.1) = []) :
    alist_mem (update_discoveries_cache api now s e w st).cache.intervals iv.2.2 = true ∧
    ∀ c : Cache, (process_interval api now c iv).systems = c.systems := by
  constructor
  · rw [update_cache_eq]
    refine run_intervals_marks api now ?_
    rw [update_candidates_eq] at hiv
    exact hiv
  · intro c
    rw [process_interval_systems, hfail]
    rfl

/-- C1 witness: a one-week cold-start run whose only fetch fails; the
interval is marked anyway. -/
theorem failed_fetch_still_marked_witness :
    alist_mem (update_discoveries_cache (fun _ _ => ApiResponse.failure) (fun _ => "u")
      0 604800 0 none).cache.intervals 0 = true :=
  (failed_fetch_still_marked (fun _ _ => ApiResponse.failure) (fun _ => "u")
    0 604800 0 none (0, 604800, 0) (by decide) rfl).1

/-! ## Lemmas for the safety-window re-fetch claim -/

/-- The safety window with `safety_weeks = 2` is the last two whole weeks
before `end_date`'s Monday alignment, plus the partial week up to `end_date`
when `end_date` does not fall on a Monday. -/
theorem safety_gen_eval (e : Int) :
    generate_stable_week_intervals (align_to_monday (e - secondsPerDay * (7 * 2))) e =
      if weekday e = 0 then
        [(align_to_monday e - 2 * 604800, align_to_monday e - 604800),
          (align_to_monday e - 604800, align_to_monday e)]
      else
        [(align_to_monday e - 2 * 604800, align_to_monday e - 604800),
          (align_to_monday e - 604800, align_to_monday e),
          (align_to_monday e, align_to_monday e + 604800)] := by
  have hw : secondsPerWeek = 604800 := rfl
  have hd : secondsPerDay = 86400 := rfl
  rw [hd]
  have h1 : align_to_monday (e - 86400 * (7 * 2)) = align_to_monday e - 2 * 604800 := by
    rw [align_to_monday_eq, align_to_monday_eq]
    omega
  rw [generate_stable_week_intervals, h1]
  have h2 : align_to_monday (align_to_monday e - 2 * 604800) =
      align_to_monday e - 2 * 604800 := by
    rw [align_to_monday_eq, align_to_monday_eq]
    omega
  rw [h2]
  have hae := align_to_monday_eq e
  by_cases hW : weekday e = 0
  · rw [if_pos hW]
    rw [weekday_eq] at hW
    have hc1 : align_to_monday e - 2 * 604800 < e := by omega
    have hc2 : align_to_monday e - 2 * 604800 + secondsPerWeek < e := by
      rw [hw]
      omega
    have hc3 : ¬ (align_to_monday e - 2 * 604800 + secondsPerWeek + secondsPerWeek < e) := by
      rw [hw]
      omega
    rw [gen_aux_eq, if_pos hc1, gen_aux_eq, if_pos hc2, gen_aux_eq, if_neg hc3]
    simp only [hw, Prod.mk.injEq, List.cons.injEq, and_true, true_and]
    omega
  · rw [if_neg hW]
    rw [weekday_eq] at hW
    have hc1 : align_to_monday e - 2 * 604800 < e := by omega
    have hc2 : align_to_monday e - 2 * 604800 + secondsPerWeek < e := by
      rw [hw]
      omega
    have hc3 : align_to_monday e - 2 * 604800 + secondsPerWeek + secondsPerWeek < e := by
      rw [hw]
      omega
    have hc4 : ¬ (align_to_monday e - 2 * 604800 + secondsPerWeek + secondsPerWeek +
        secondsPerWeek < e) := by
      rw [hw]
      omega
    rw [gen_aux_eq, if_pos hc1, gen_aux_eq, if_pos hc2, gen_aux_eq, if_pos hc3,
      gen_aux_eq, if_neg hc4]
    simp only [hw, Prod.mk.injEq, List.cons.injEq, and_true, true_and]
    omega

/-- After a run, every interval generated for the requested range has its
key present in the interval map: it either survived invalidation or was a
candidate and was marked by the fetch loop. -/
theorem update_marks_all_generated (api : Int → Int → ApiResponse) (now : Int → String)
    (s e w : Int) (st : Option Cache) :
    ∀ iv ∈ generate_stable_week_intervals s e,
      alist_mem (update_discoveries_cache api now s e w st).cache.intervals
        (interval_key iv.1) = true := by
  intro iv hiv
  rw [update_cache_eq]
  by_cases hmem : alist_mem (invalidate_safety (loaded st) e w).intervals (interval_key iv.1)
  · exact run_intervals_mem_mono _ _ _ hmem
  · have hin : ((iv.1, iv.2, interval_key iv.1) : Int × Int × Int) ∈
        intervals_to_fetch (invalidate_safety (loaded st) e w) s e := by
      rw [intervals_to_fetch_eq, mem_collect_candidates]
      refine ⟨iv, hiv, ?_⟩
      rw [candidate_step, if_neg (mem_generate_in_range hiv), if_neg hmem]
      exact List.mem_singleton.mpr rfl
    exact run_intervals_marks _ _ hin

/-- Filtering the generated intervals down to the last two whole weeks
before a Monday `end_date` (any time of day) keeps exactly the final two
whole-week intervals, provided the Monday-aligned anchor lies at least two
weeks back. -/
theorem collect_last_two (e : Int) (hW : (e / 86400) % 7 = 0) :
    ∀ (n : Nat) (c : Int), (e - c).toNat ≤ n → (c / 86400) % 7 = 0 →
      c / 86400 ≤ e / 86400 - 14 →
      collect_candidates
        (fun jv => if interval_key jv.1 = e / 86400 - 14 ∨ interval_key jv.1 = e / 86400 - 7
          then [(jv.1, jv.2, interval_key jv.1)] else [])
        (gen_aux c e) =
      [((e / 86400 - 14) * 86400 + c % 86400, (e / 86400 - 7) * 86400 + c % 86400,
          e / 86400 - 14),
        ((e / 86400 - 7) * 86400 + c % 86400, (e / 86400) * 86400 + c % 86400,
          e / 86400 - 7)] := by
  intro n
  induction n with
  | zero =>
      intro c hn h1 h2
      exact absurd hn (by omega)
  | succ n ih =>
      intro c hn h1 h2
      have hw : secondsPerWeek = 604800 := rfl
      have hce : c < e := by omega
      rw [gen_aux_of_lt hce, collect_candidates]
      by_cases hlast : c / 86400 = e / 86400 - 14
      · have hk1 : interval_key c = e / 86400 - 14 := by
          rw [interval_key_eq]
          exact hlast
        rw [if_pos (Or.inl hk1)]
        have hce2 : c + secondsPerWeek < e := by
          rw [hw]
          omega
        rw [gen_aux_of_lt hce2, collect_candidates]
        have hk2 : interval_key (c + secondsPerWeek) = e / 86400 - 7 := by
          rw [interval_key_eq, hw]
          omega
        rw [if_pos (Or.inr hk2)]
        by_cases hg3 : c + secondsPerWeek + secondsPerWeek < e
        · rw [gen_aux_of_lt hg3, collect_candidates]
          have hk3 : ¬ (interval_key (c + secondsPerWeek + secondsPerWeek) =
                e / 86400 - 14 ∨
              interval_key (c + secondsPerWeek + secondsPerWeek) = e / 86400 - 7) := by
            rw [interval_key_eq, hw]
            omega
          rw [if_neg hk3, List.nil_append]
          have hg4 : ¬ (c + secondsPerWeek + secondsPerWeek + secondsPerWeek < e) := by
            rw [hw]
            omega
          rw [gen_aux_of_not_lt hg4, collect_candidates]
          rw [hk1, hk2]
          simp only [hw, List.append_nil, List.singleton_append, Prod.mk.injEq,
            List.cons.injEq, and_true, true_and]
          omega
        · rw [gen_aux_of_not_lt hg3, collect_candidates]
          rw [hk1, hk2]
          simp only [hw, List.append_nil, List.singleton_append, Prod.mk.injEq,
            List.cons.injEq, and_true, true_and]
          omega
      · have hk1 : ¬ (interval_key c = e / 86400 - 14 ∨ interval_key c = e / 86400 - 7) := by
          rw [interval_key_eq]
          omega
        rw [if_neg hk1, List.nil_append]
        have hn2 : (e - (c + secondsPerWeek)).toNat ≤ n := by
          rw [hw]
          omega
        have h1b : ((c + secondsPerWeek) / 86400) % 7 = 0 := by
          rw [hw]
          omega
        have h2b : (c + secondsPerWeek) / 86400 ≤ e / 86400 - 14 := by
          rw [hw]
          omega
        rw [ih (c + secondsPerWeek) hn2 h1b h2b]
        simp only [hw, Prod.mk.injEq, List.cons.injEq, and_true, true_and]
        omega

/-- Filtering the generated intervals down to the keys of the safety window
of a mid-week `end_date` keeps exactly the final three intervals: the two
last whole weeks before `end_date`'s Monday and the partial week containing
`end_date`. -/
theorem collect_last_three (e : Int) (hW : ¬ (e / 86400) % 7 = 0) :
    ∀ (n : Nat) (c : Int), (e - c).toNat ≤ n → (c / 86400) % 7 = 0 →
      c / 86400 ≤ e / 86400 - (e / 86400) % 7 - 14 →
      collect_candidates
        (fun jv => if interval_key jv.1 = e / 86400 - (e / 86400) % 7 - 14 ∨
            interval_key jv.1 = e / 86400 - (e / 86400) % 7 - 7 ∨
            interval_key jv.1 = e / 86400 - (e / 86400) % 7
          then [(jv.1, jv.2, interval_key jv.1)] else [])
        (gen_aux c e) =
      [((e / 86400 - (e / 86400) % 7 - 14) * 86400 + c % 86400,
          (e / 86400 - (e / 86400) % 7 - 7) * 86400 + c % 86400,
          e / 86400 - (e / 86400) % 7 - 14),
        ((e / 86400 - (e / 86400) % 7 - 7) * 86400 + c % 86400,
          (e / 86400 - (e / 86400) % 7) * 86400 + c % 86400,
          e / 86400 - (e / 86400) % 7 - 7),
        ((e / 86400 - (e / 86400) % 7) * 86400 + c % 86400,
          (e / 86400 - (e / 86400) % 7 + 7) * 86400 + c % 86400,
          e / 86400 - (e / 86400) % 7)] := by
  intro n
  induction n with
  | zero =>
      intro c hn h1 h2
      exact absurd hn (by omega)
  | succ n ih =>
      intro c hn h1 h2
      have hw : secondsPerWeek = 604800 := rfl
      have hce : c < e := by omega
      rw [gen_aux_of_lt hce, collect_candidates]
      by_cases hlast : c / 86400 = e / 86400 - (e / 86400) % 7 - 14
      · have hk1 : interval_key c = e / 86400 - (e / 86400) % 7 - 14 := by
          rw [interval_key_eq]
          exact hlast
        rw [if_pos (Or.inl hk1)]
        have hce2 : c + secondsPerWeek < e := by
          rw [hw]
          omega
        rw [gen_aux_of_lt hce2, collect_candidates]
        have hk2 : interval_key (c + secondsPerWeek) = e / 86400 - (e / 86400) % 7 - 7 := by
          rw [interval_key_eq, hw]
          omega
        rw [if_pos (Or.inr (Or.inl hk2))]
        have hce3 : c + secondsPerWeek + secondsPerWeek < e := by
          rw [hw]
          omega
        rw [gen_aux_of_lt hce3, collect_candidates]
        have hk3 : interval_key (c + secondsPerWeek + secondsPerWeek) =
            e / 86400 - (e / 86400) % 7 := by
          rw [interval_key_eq, hw]
          omega
        rw [if_pos (Or.inr (Or.inr hk3))]
        have hg4 : ¬ (c + secondsPerWeek + secondsPerWeek + secondsPerWeek < e) := by
          rw [hw]
          omega
        rw [gen_aux_of_not_lt hg4, collect_candidates]
        rw [hk1, hk2, hk3]
        simp only [hw, List.append_nil, List.singleton_append, Prod.mk.injEq,
          List.cons.injEq, and_true, true_and]
        omega
      · have hk1 : ¬ (interval_key c = e / 86400 - (e / 86400) % 7 - 14 ∨
            interval_key c = e / 86400 - (e / 86400) % 7 - 7 ∨
            interval_key c = e / 86400 - (e / 86400) % 7) := by
          rw [interval_key_eq]
          omega
        rw [if_neg hk1, List.nil_append]
        have hn2 : (e - (c + secondsPerWeek)).toNat ≤ n := by
          rw [hw]
          omega
        have h1b : ((c + secondsPerWeek) / 86400) % 7 = 0 := by
          rw [hw]
          omega
        have h2b : (c + secondsPerWeek) / 86400 ≤ e / 86400 - (e / 86400) % 7 - 14 := by
          rw [hw]
          omega
        rw [ih (c + secondsPerWeek) hn2 h1b h2b]
        simp only [hw, Prod.mk.injEq, List.cons.injEq, and_true, true_and]
        omega

/-- C7 counterexample: range [0, 1468800) with end_date mid-week (a
Thursday) and safety_weeks = 2.  After a successful run, an immediate re-run
with the same bounds has exactly 3 candidates, refuting "candidate count
equals 2". -/
theorem rerun_candidate_count_cex :
    (update_discoveries_cache (fun _ _ => ApiResponse.ok 100 []) (fun _ => "t")
        0 1468800 2
        (some (update_discoveries_cache (fun _ _ => ApiResponse.ok 100 []) (fun _ => "t")
          0 1468800 2 none).cache)).candidates.length = 3 ∧
    ¬ ((update_discoveries_cache (fun _ _ => ApiResponse.ok 100 []) (fun _ => "t")
        0 1468800 2
        (some (update_discoveries_cache (fun _ _ => ApiResponse.ok 100 []) (fun _ => "t")
          0 1468800 2 none).cache)).candidates.length = 2) := by
  decide

/-- C7 (amended): after a reconciliation run with safety_weeks = 2 over a
range that spans at least the safety window completes, immediately re-running
with the same bounds produces as candidates exactly the trailing
safety-window intervals (every older, previously fetched interval is
skipped), and the candidate count equals 2 when end_date falls on a Monday
and 3 when it falls mid-week. -/
theorem rerun_candidates_safety_window (api api2 : Int → Int → ApiResponse)
    (now now2 : Int → String) (s e : Int) (st : Option Cache)
    (hrange : align_to_monday s + 2 * secondsPerWeek ≤ align_to_monday e) :
    ((update_discoveries_cache api2 now2 s e 2
        (some (update_discoveries_cache api now s e 2 st).cache)).candidates.map
      fun t => t.2.2) =
      (generate_stable_week_intervals (align_to_monday (e - secondsPerDay * (7 * 2))) e).map
        (fun iv => interval_key iv.1) ∧
    (update_discoveries_cache api2 now2 s e 2
        (some (update_discoveries_cache api now s e 2 st).cache)).candidates.length =
      (if weekday e = 0 then 2 else 3) := by
  have hw : secondsPerWeek = 604800 := rfl
  have hae := align_to_monday_eq e
  have has : (align_to_monday s / 86400) % 7 = 0 := by
    have h := weekday_align_to_monday s
    rw [weekday_eq] at h
    exact h
  rw [hw, hae] at hrange
  by_cases hW : weekday e = 0
  · have hW7 : (e / 86400) % 7 = 0 := by
      have h := hW
      rwa [weekday_eq] at h
    have hk1 : interval_key (align_to_monday e - 2 * 604800) = e / 86400 - 14 := by
      rw [interval_key_eq, hae]
      omega
    have hk2 : interval_key (align_to_monday e - 604800) = e / 86400 - 7 := by
      rw [interval_key_eq, hae]
      omega
    have hcongr : ∀ jv ∈ generate_stable_week_intervals s e,
        candidate_step (invalidate_safety
          (loaded (some (update_discoveries_cache api now s e 2 st).cache)) e 2) s e jv =
        (fun jv : Int × Int =>
          if interval_key jv.1 = e / 86400 - 14 ∨ interval_key jv.1 = e / 86400 - 7
          then [(jv.1, jv.2, interval_key jv.1)] else []) jv := by
      intro jv hjv
      rw [candidate_step, if_neg (mem_generate_in_range hjv)]
      have h1 : alist_mem
          (loaded (some (update_discoveries_cache api now s e 2 st).cache)).intervals
          (interval_key jv.1) = true := update_marks_all_generated api now s e 2 st jv hjv
      have hmm : alist_mem (invalidate_safety
          (loaded (some (update_discoveries_cache api now s e 2 st).cache)) e 2).intervals
          (interval_key jv.1) =
          !((generate_stable_week_intervals
              (align_to_monday (e - secondsPerDay * (7 * 2))) e).any
            fun iv => decide (interval_key iv.1 = interval_key jv.1)) := by
        rw [invalidate_safety_mem, h1, Bool.true_and]
      rw [hmm, safety_gen_eval e, if_pos hW]
      simp only [List.any_cons, List.any_nil, hk1, hk2, Bool.or_false]
      by_cases hk : interval_key jv.1 = e / 86400 - 14 ∨ interval_key jv.1 = e / 86400 - 7
      · have hb : (decide (e / 86400 - 14 = interval_key jv.1) ||
            decide (e / 86400 - 7 = interval_key jv.1)) = true := by
          rcases hk with hk | hk <;> simp [hk]
        rw [hb]
        simp [hk]
      · have hne1 : ¬ (e / 86400 - 14 = interval_key jv.1) := by
          push_neg at hk
          exact fun h => hk.1 h.symm
        have hne2 : ¬ (e / 86400 - 7 = interval_key jv.1) := by
          push_neg at hk
          exact fun h => hk.2 h.symm
        have hb : (decide (e / 86400 - 14 = interval_key jv.1) ||
            decide (e / 86400 - 7 = interval_key jv.1)) = false := by
          simp [hne1, hne2]
        rw [hb]
        simp [hk]
    have hA : align_to_monday s / 86400 ≤ e / 86400 - 14 := by omega
    have hcands : (update_discoveries_cache api2 now2 s e 2
        (some (update_discoveries_cache api now s e 2 st).cache)).candidates =
        [((e / 86400 - 14) * 86400 + align_to_monday s % 86400,
            (e / 86400 - 7) * 86400 + align_to_monday s % 86400, e / 86400 - 14),
          ((e / 86400 - 7) * 86400 + align_to_monday s % 86400,
            (e / 86400) * 86400 + align_to_monday s % 86400, e / 86400 - 7)] := by
      rw [update_candidates_eq, intervals_to_fetch_eq, collect_candidates_congr hcongr,
        generate_stable_week_intervals]
      exact collect_last_two e hW7 (e - align_to_monday s).toNat (align_to_monday s)
        le_rfl has hA
    rw [hcands, safety_gen_eval e, if_pos hW]
    refine ⟨?_, ?_⟩
    · simp only [List.map_cons, List.map_nil, hk1, hk2]
    · rw [if_pos hW]
      rfl
  · have hW7 : ¬ (e / 86400) % 7 = 0 := by
      have h := hW
      rwa [weekday_eq] at h
    have hk1 : interval_key (align_to_monday e - 2 * 604800) =
        e / 86400 - (e / 86400) % 7 - 14 := by
      rw [interval_key_eq, hae]
      omega
    have hk2 : interval_key (align_to_monday e - 604800) =
        e / 86400 - (e / 86400) % 7 - 7 := by
      rw [interval_key_eq, hae]
      omega
    have hk3 : interval_key (align_to_monday e) = e / 86400 - (e / 86400) % 7 := by
      rw [interval_key_eq, hae]
      omega
    have hcongr : ∀ jv ∈ generate_stable_week_intervals s e,
        candidate_step (invalidate_safety
          (loaded (some (update_discoveries_cache api now s e 2 st).cache)) e 2) s e jv =
        (fun jv : Int × Int =>
          if interval_key jv.1 = e / 86400 - (e / 86400) % 7 - 14 ∨
              interval_key jv.1 = e / 86400 - (e / 86400) % 7 - 7 ∨
              interval_key jv.1 = e / 86400 - (e / 86400) % 7
          then [(jv.1, jv.2, interval_key jv.1)] else []) jv := by
      intro jv hjv
      rw [candidate_step, if_neg (mem_generate_in_range hjv)]
      have h1 : alist_mem
          (loaded (some (update_discoveries_cache api now s e 2 st).cache)).intervals
          (interval_key jv.1) = true := update_marks_all_generated api now s e 2 st jv hjv
      have hmm : alist_mem (invalidate_safety
          (loaded (some (update_discoveries_cache api now s e 2 st).cache)) e 2).intervals
          (interval_key jv.1) =
          !((generate_stable_week_intervals
              (align_to_monday (e - secondsPerDay * (7 * 2))) e).any
            fun iv => decide (interval_key iv.1 = interval_key jv.1)) := by
        rw [invalidate_safety_mem, h1, Bool.true_and]
      rw [hmm, safety_gen_eval e, if_neg hW]
      simp only [List.any_cons, List.any_nil, hk1, hk2, hk3, Bool.or_false]
      by_cases hk : interval_key jv.1 = e / 86400 - (e / 86400) % 7 - 14 ∨
          interval_key jv.1 = e / 86400 - (e / 86400) % 7 - 7 ∨
          interval_key jv.1 = e / 86400 - (e / 86400) % 7
      · have hb : (decide (e / 86400 - (e / 86400) % 7 - 14 = interval_key jv.1) ||
            (decide (e / 86400 - (e / 86400) % 7 - 7 = interval_key jv.1) ||
              decide (e / 86400 - (e / 86400) % 7 = interval_key jv.1))) = true := by
          rcases hk with hk | hk | hk <;> simp [hk]
        rw [hb]
        simp [hk]
      · have hne1 : ¬ (e / 86400 - (e / 86400) % 7 - 14 = interval_key jv.1) := by
          push_neg at hk
          exact fun h => hk.1 h.symm
        have hne2 : ¬ (e / 86400 - (e / 86400) % 7 - 7 = interval_key jv.1) := by
          push_neg at hk
          exact fun h => hk.2.1 h.symm
        have hne3 : ¬ (e / 86400 - (e / 86400) % 7 = interval_key jv.1) := by
          push_neg at hk
          exact fun h => hk.2.2 h.symm
        have hb : (decide (e / 86400 - (e / 86400) % 7 - 14 = interval_key jv.1) ||
            (decide (e / 86400 - (e / 86400) % 7 - 7 = interval_key jv.1) ||
              decide (e / 86400 - (e / 86400) % 7 = interval_key jv.1))) = false := by
          simp [hne1, hne2, hne3]
        rw [hb]
        simp [hk]
    have hA : align_to_monday s / 86400 ≤ e / 86400 - (e / 86400) % 7 - 14 := by omega
    have hcands : (update_discoveries_cache api2 now2 s e 2
        (some (update_discoveries_cache api now s e 2 st).cache)).candidates =
        [((e / 86400 - (e / 86400) % 7 - 14) * 86400 + align_to_monday s % 86400,
            (e / 86400 - (e / 86400) % 7 - 7) * 86400 + align_to_monday s % 86400,
            e / 86400 - (e / 86400) % 7 - 14),
          ((e / 86400 - (e / 86400) % 7 - 7) * 86400 + align_to_monday s % 86400,
            (e / 86400 - (e / 86400) % 7) * 86400 + align_to_monday s % 86400,
            e / 86400 - (e / 86400) % 7 - 7),
          ((e / 86400 - (e / 86400) % 7) * 86400 + align_to_monday s % 86400,
            (e / 86400 - (e / 86400) % 7 + 7) * 86400 + align_to_monday s % 86400,
            e / 86400 - (e / 86400) % 7)] := by
      rw [update_candidates_eq, intervals_to_fetch_eq, collect_candidates_congr hcongr,
        generate_stable_week_intervals]
      exact collect_last_three e hW7 (e - align_to_monday s).toNat (align_to_monday s)
        le_rfl has hA
    rw [hcands, safety_gen_eval e, if_neg hW]
    refine ⟨?_, ?_⟩
    · simp only [List.map_cons, List.map_nil, hk1, hk2, hk3]
    · rw [if_neg hW]
      rfl

/-- C7 witness: a Monday-aligned 3-week range reruns with exactly 2
candidates; a mid-week (Thursday) 17-day range reruns with exactly 3. -/
theorem rerun_candidates_safety_window_witness :
    (update_discoveries_cache (fun _ _ => ApiResponse.ok 100 []) (fun _ => "t")
        0 1814400 2
        (some (update_discoveries_cache (fun _ _ => ApiResponse.ok 100 []) (fun _ => "t")
          0 1814400 2 none).cache)).candidates.length = 2 ∧
    (update_discoveries_cache (fun _ _ => ApiResponse.ok 100 []) (fun _ => "u")
        0 1555200 2
        (some (update_discoveries_cache (fun _ _ => ApiResponse.ok 100 []) (fun _ => "u")
          0 1555200 2 none).cache)).candidates.length = 3 :=
  ⟨(rerun_candidates_safety_window _ _ _ _ 0 1814400 none (by decide)).2,
    (rerun_candidates_safety_window _ _ _ _ 0 1555200 none (by decide)).2⟩
